import Mathlib

/-!
Verification of the message-queue trait layer
(`substrate/frame/support/src/traits/messages.rs`) and of the identity
`Data` codec (`substrate/frame/identity/src/types.rs`) of this repository.
The Rust code is shallowly embedded: pure functions become Lean functions,
trait objects become records of functions, storage-touching operations
take and return an explicit state.
-/

namespace MessagesTraits

/-- Modelled from the spec: `Weight` lives in the `sp_weights` crate, which is
not under `src/`.  Per the spec it is a multi-dimensional resource vector
(execution-time units and proof-size units). -/
structure Weight where
  ref_time : Nat
  proof_size : Nat
deriving DecidableEq, Repr

/-- Modelled from the spec: the zero weight vector. -/
def Weight.zero : Weight := ⟨0, 0⟩

/-- Modelled from the spec: component-wise comparison, "never exceeds the
limit in any dimension". -/
def Weight.all_lte (a b : Weight) : Prop :=
  a.ref_time ≤ b.ref_time ∧ a.proof_size ≤ b.proof_size

instance (a b : Weight) : Decidable (Weight.all_lte a b) := by
  unfold Weight.all_lte; infer_instance

/-- Errors of `ServiceQueues::execute_overweight`, from `messages.rs`. -/
inductive ExecuteOverweightError where
  | NotFound
  | AlreadyProcessed
  | InsufficientWeight
  | QueuePaused
  | Other
  | RecursiveDisallowed
deriving DecidableEq, Repr

/-- `NoopServiceQueues::service_queues`: services queues by doing nothing,
returning `Weight::zero()`. -/
def NoopServiceQueues.service_queues (_weight_limit : Weight) : Weight :=
  Weight.zero

/-- The default (unoverridden) body of `ServiceQueues::execute_overweight`:
it ignores both arguments and returns `Err(NotFound)`.  The body performs no
storage access, so the embedding is a pure function. -/
def ServiceQueues.default_execute_overweight {Addr : Type}
    (_weight_limit : Weight) (_address : Addr) :
    Except ExecuteOverweightError Weight :=
  .error .NotFound

/-- The tuple implementation of `QueuePausedQuery::is_paused` generated by
`impl_for_tuples(8)`: iterate over the components, return `true` as soon as
one component reports the origin paused, otherwise `false`.  A tuple of up
to 8 components is embedded as a list of pause predicates. -/
def isPausedCombined {Origin : Type} (sources : List (Origin → Bool))
    (origin : Origin) : Bool :=
  sources.any (fun source => source origin)

/-- Modelled from the spec: `Footprint` comes from
`frame_support::traits::storage`, which is not under `src/`; per the spec it
is the total/realized storage size of a queue (a count and a byte size),
with an all-zero `Default`. -/
structure Footprint where
  count : Nat
  size : Nat
deriving DecidableEq, Repr

/-- Modelled from the spec: the derived all-zero default of `Footprint`. -/
def Footprint.default : Footprint := ⟨0, 0⟩

/-- `QueueFootprint` from `messages.rs`: page count, ready-page count and
storage footprint of a queue.  `pages` and `ready_pages` are `u32` in the
source; no arithmetic is performed on them here, so they are embedded as
`Nat`. -/
structure QueueFootprint where
  pages : Nat
  ready_pages : Nat
  storage : Footprint
deriving DecidableEq, Repr

/-- The derived `Default` of `QueueFootprint`: all fields default. -/
def QueueFootprint.default : QueueFootprint := ⟨0, 0, Footprint.default⟩

/-- `BoundedSlice<u8, MaxLen>` from `sp_runtime`: a byte slice whose length
is at most `maxLen`, enforced at construction.  Bytes are embedded as `Nat`
(no byte arithmetic occurs in the embedded operations). -/
structure BoundedSlice (maxLen : Nat) where
  data : List Nat
  len_le : data.length ≤ maxLen

/-- The trait `EnqueueMessage<Origin>` as a record of operations.  Enqueue
and sweep mutate durable queue storage, embedded as explicit state passing
over a state type `σ`; `footprint` is declared in the source with no `&mut`
access, so it reads the state and returns only a `QueueFootprint`. -/
structure EnqueueMessageImpl (Origin σ : Type) where
  MaxMessageLen : Nat
  enqueue_message : BoundedSlice MaxMessageLen → Origin → σ → σ
  enqueue_messages : List (BoundedSlice MaxMessageLen) → Origin → σ → σ
  sweep_queue : Origin → σ → σ
  footprint : Origin → σ → QueueFootprint

/-- The trait `HandleMessage` (single implied origin) as a record of
operations, embedded like `EnqueueMessageImpl`. -/
structure HandleMessageImpl (σ : Type) where
  MaxMessageLen : Nat
  handle_message : BoundedSlice MaxMessageLen → σ → σ
  handle_messages : List (BoundedSlice MaxMessageLen) → σ → σ
  sweep_queue : σ → σ
  footprint : σ → QueueFootprint

/-- `impl EnqueueMessage<Origin> for ()`: `MaxMessageLen = ConstU32<0>`, all
mutating operations have empty bodies (the state is untouched), and
`footprint` returns `QueueFootprint::default()`. -/
def unitEnqueueMessage (Origin σ : Type) : EnqueueMessageImpl Origin σ where
  MaxMessageLen := 0
  enqueue_message := fun _ _ s => s
  enqueue_messages := fun _ _ s => s
  sweep_queue := fun _ s => s
  footprint := fun _ _ => QueueFootprint.default

/-- `TransformOrigin<E, O, N, C>`: an `EnqueueMessage<N>` that forwards every
operation to `E` with the origin converted by `C::convert`, keeping
`E::MaxMessageLen`. -/
def TransformOrigin {O N σ : Type} (E : EnqueueMessageImpl O σ)
    (C : N → O) : EnqueueMessageImpl N σ where
  MaxMessageLen := E.MaxMessageLen
  enqueue_message := fun message origin s => E.enqueue_message message (C origin) s
  enqueue_messages := fun messages origin s => E.enqueue_messages messages (C origin) s
  sweep_queue := fun origin s => E.sweep_queue (C origin) s
  footprint := fun origin s => E.footprint (C origin) s

/-- `EnqueueWithOrigin<E, O>`: a `HandleMessage` that forwards every
operation to `E` at the fixed origin `O::get()`, keeping `E::MaxMessageLen`. -/
def EnqueueWithOrigin {O σ : Type} (E : EnqueueMessageImpl O σ)
    (Oget : O) : HandleMessageImpl σ where
  MaxMessageLen := E.MaxMessageLen
  handle_message := fun message s => E.enqueue_message message Oget s
  handle_messages := fun messages s => E.enqueue_messages messages Oget s
  sweep_queue := fun s => E.sweep_queue Oget s
  footprint := fun s => E.footprint Oget s

/-- Calling `footprint`: its source signature returns only a
`QueueFootprint`, so the invocation leaves the queue state untouched. -/
def footprintCall {Origin σ : Type} (E : EnqueueMessageImpl Origin σ)
    (origin : Origin) (s : σ) : QueueFootprint × σ :=
  (E.footprint origin s, s)

end MessagesTraits

namespace IdentityTypes

/-- The `Data` enum of `frame/identity/src/types.rs`.  Bytes are embedded as
`Nat`; the `BoundedVec<u8, ConstU32<32>>` bound of `Raw` and the `[u8; 32]`
length of the hash variants are stated as the well-formedness predicate
`Data.wf` below, matching the Rust type-level invariants. -/
inductive Data where
  | none
  | raw (x : List Nat)
  | blakeTwo256 (h : List Nat)
  | sha256 (h : List Nat)
  | keccak256 (h : List Nat)
  | shaThree256 (h : List Nat)
deriving DecidableEq, Repr

/-- The type-level invariants of the Rust `Data`: `Raw` holds a
`BoundedVec<u8, ConstU32<32>>` (length at most 32) and each hash variant a
`[u8; 32]` (length exactly 32). -/
def Data.wf : Data → Prop
  | .none => True
  | .raw x => x.length ≤ 32
  | .blakeTwo256 h => h.length = 32
  | .sha256 h => h.length = 32
  | .keccak256 h => h.length = 32
  | .shaThree256 h => h.length = 32

instance (d : Data) : Decidable d.wf := by
  cases d <;> (unfold Data.wf; infer_instance)

/-- `Encode for Data`: `None` encodes to the single byte `0`; `Raw(x)`
truncates `x` to at most 32 bytes and prepends `len + 1`; each hash variant
prepends its variant byte (34 to 37) to the 32 hash bytes. -/
def dataEncode : Data → List Nat
  | .none => [0]
  | .raw x =>
    let l := min x.length 32
    (l + 1) :: x.take l
  | .blakeTwo256 h => 34 :: h
  | .sha256 h => 35 :: h
  | .keccak256 h => 36 :: h
  | .shaThree256 h => 37 :: h

/-- `input.read(&mut r)` / `<[u8; 32]>::decode(input)`: read exactly `n`
bytes from the input, failing when fewer are available. -/
def readBytes (n : Nat) (input : List Nat) :
    Except String (List Nat × List Nat) :=
  if n ≤ input.length then .ok (input.take n, input.drop n)
  else .error "Not enough data to fill buffer"

/-- `Decode for Data`: read one leading byte `b`; `0` gives `None`,
`1..=33` gives `Raw` of the next `b - 1` bytes, `34..=37` give the hash
variants of the next 32 bytes, and any other value fails with
"invalid leading byte". -/
def dataDecode (input : List Nat) : Except String (Data × List Nat) :=
  match input with
  | [] => .error "Not enough data to fill buffer"
  | b :: rest =>
    if b = 0 then .ok (.none, rest)
    else if b ≤ 33 then
      match readBytes (b - 1) rest with
      | .ok (r, rest2) => .ok (.raw r, rest2)
      | .error e => .error e
    else if b = 34 then
      match readBytes 32 rest with
      | .ok (h, rest2) => .ok (.blakeTwo256 h, rest2)
      | .error e => .error e
    else if b = 35 then
      match readBytes 32 rest with
      | .ok (h, rest2) => .ok (.sha256 h, rest2)
      | .error e => .error e
    else if b = 36 then
      match readBytes 32 rest with
      | .ok (h, rest2) => .ok (.keccak256 h, rest2)
      | .error e => .error e
    else if b = 37 then
      match readBytes 32 rest with
      | .ok (h, rest2) => .ok (.shaThree256 h, rest2)
      | .error e => .error e
    else .error "invalid leading byte"

end IdentityTypes

namespace ServiceModel

/-!
Modelled from the spec: the Service Loop, Page Store and Overweight Store
(the `pallet-message-queue` implementation) are not under `src/`; only the
trait layer is.  The state machine below follows §3 to §4.4 of the spec:
per-origin FIFO queues, terminal resolution only at the head of a queue
(processed, dropped, or relocated to the Overweight Store), `Yield` and
recoverable failures leaving the message in place, `execute_overweight`
acting only on the Overweight Store, and sweep discarding a queue's pending
messages in order.  Messages are identified by `Nat` ids and origins by
`Nat`; ghost fields record the enqueue and resolution order per origin.
-/

/-- Modelled from the spec: queue-engine state.  `queues` holds the pending
(not yet terminally resolved) messages of each origin, oldest first;
`overweight` is the Overweight Store; `enqueuedTrace` and `resolvedTrace`
are ghost histories of the enqueue order and the terminal-resolution order
of each origin. -/
structure MQState where
  queues : Nat → List Nat
  overweight : List (Nat × Nat)
  enqueuedTrace : Nat → List Nat
  resolvedTrace : Nat → List Nat

/-- Pointwise update of a per-origin map. -/
def upd (f : Nat → List Nat) (o : Nat) (v : List Nat) : Nat → List Nat :=
  fun x => if x = o then v else f x

/-- Modelled from the spec: outcome categories of one Message Processor
invocation (§4.2): terminal success, terminal drop (BadFormat, Corrupt,
Unsupported), relocation to the Overweight Store (Overweight,
StackLimitReached), yield, and a recoverable failure that leaves the
message at the head. -/
inductive Outcome where
  | processed
  | dropped
  | relocated
  | yielded
  | recoverable

/-- Modelled from the spec: the operations whose interleavings the spec
quantifies over — ingress (single and batch), one Service Loop step on a
chosen origin (§4.3: always the head of the origin's oldest page),
`execute_overweight` on an Overweight Store entry, and sweep (§4.1). -/
inductive MQOp where
  | enqueue (o m : Nat)
  | enqueueBatch (o : Nat) (ms : List Nat)
  | serviceStep (o : Nat) (oc : Outcome)
  | execOverweight (i : Nat)
  | sweep (o : Nat)

/-- Modelled from the spec: one atomic step of the queue engine. -/
def MQStep : MQOp → MQState → MQState
  | .enqueue o m, s =>
    { s with queues := upd s.queues o (s.queues o ++ [m]),
             enqueuedTrace := upd s.enqueuedTrace o (s.enqueuedTrace o ++ [m]) }
  | .enqueueBatch o ms, s =>
    { s with queues := upd s.queues o (s.queues o ++ ms),
             enqueuedTrace := upd s.enqueuedTrace o (s.enqueuedTrace o ++ ms) }
  | .serviceStep o oc, s =>
    match s.queues o, oc with
    | m :: rest, .processed =>
      { s with queues := upd s.queues o rest,
               resolvedTrace := upd s.resolvedTrace o (s.resolvedTrace o ++ [m]) }
    | m :: rest, .dropped =>
      { s with queues := upd s.queues o rest,
               resolvedTrace := upd s.resolvedTrace o (s.resolvedTrace o ++ [m]) }
    | m :: rest, .relocated =>
      { s with queues := upd s.queues o rest,
               overweight := s.overweight ++ [(o, m)],
               resolvedTrace := upd s.resolvedTrace o (s.resolvedTrace o ++ [m]) }
    | _, _ => s
  | .execOverweight i, s =>
    { s with overweight := s.overweight.eraseIdx i }
  | .sweep o, s =>
    { s with queues := upd s.queues o [],
             resolvedTrace := upd s.resolvedTrace o (s.resolvedTrace o ++ s.queues o),
             overweight := s.overweight.filter (fun p => p.1 != o) }

/-- The empty initial state. -/
def MQInit : MQState := ⟨fun _ => [], [], fun _ => [], fun _ => []⟩

/-- Run a sequence of operations from a state. -/
def MQRun (ops : List MQOp) (s : MQState) : MQState :=
  ops.foldl (fun t op => MQStep op t) s

/-- The FIFO invariant: per origin, the resolution history followed by the
still-pending messages is exactly the enqueue history. -/
def fifoInv (s : MQState) : Prop :=
  ∀ o, s.resolvedTrace o ++ s.queues o = s.enqueuedTrace o

end ServiceModel

namespace MessagesTraits

/-- Claim C1: for every weight limit `w`, `NoopServiceQueues::service_queues w`
(the sole `ServiceQueues` implementation in the sampled source) returns
`Weight.zero`, which does not exceed `w` in any dimension. -/
theorem noop_service_queues_within_limit (w : Weight) :
    NoopServiceQueues.service_queues w = Weight.zero ∧
    Weight.all_lte (NoopServiceQueues.service_queues w) w := by
  refine ⟨rfl, ?_, ?_⟩ <;> simp [NoopServiceQueues.service_queues, Weight.zero]

/-- Claim C3: the combined `is_paused` of a combination of pause sources
returns `true` iff at least one component source reports the origin paused;
the empty combination reports every origin as not paused. -/
theorem is_paused_combined_iff_any {Origin : Type}
    (sources : List (Origin → Bool)) (origin : Origin) :
    (isPausedCombined sources origin = true ↔
      ∃ source ∈ sources, source origin = true) ∧
    isPausedCombined ([] : List (Origin → Bool)) origin = false := by
  constructor
  · simp [isPausedCombined, List.any_eq_true]
  · rfl

/-- Claim C4: the default implementation of
`ServiceQueues::execute_overweight` returns `Err(NotFound)` for every weight
limit and every overweight-message address; its body touches no state and
consumes no weight (it is a pure constant function of its inputs). -/
theorem default_execute_overweight_not_found (w : Weight) (a : Nat) :
    ServiceQueues.default_execute_overweight w a =
      .error ExecuteOverweightError.NotFound := by
  rfl

/-- Claim C5: every message a caller can pass to `enqueue_message`,
`enqueue_messages`, `handle_message` or `handle_messages` is a
`BoundedSlice` over the implementation's `MaxMessageLen`, so its byte length
is at most that bound; an over-length message cannot be constructed at the
interface. -/
theorem message_length_bounded {Origin σ : Type}
    (E : EnqueueMessageImpl Origin σ) (H : HandleMessageImpl σ)
    (m : BoundedSlice E.MaxMessageLen) (ms : List (BoundedSlice E.MaxMessageLen))
    (hm : BoundedSlice H.MaxMessageLen) (hms : List (BoundedSlice H.MaxMessageLen)) :
    m.data.length ≤ E.MaxMessageLen ∧
    (∀ x ∈ ms, x.data.length ≤ E.MaxMessageLen) ∧
    hm.data.length ≤ H.MaxMessageLen ∧
    (∀ x ∈ hms, x.data.length ≤ H.MaxMessageLen) :=
  ⟨m.len_le, fun x _ => x.len_le, hm.len_le, fun x _ => x.len_le⟩

/-- Claim C6: a `footprint(origin)` call leaves all queue state unchanged,
and two consecutive calls on the same state return equal `QueueFootprint`
values; for the sole implementation in the sampled source (the `()` impl)
the returned value is `QueueFootprint::default()`. -/
theorem footprint_is_pure {Origin σ : Type} (E : EnqueueMessageImpl Origin σ)
    (o : Origin) (s : σ) :
    (footprintCall E o s).2 = s ∧
    (footprintCall E o (footprintCall E o s).2).1 = (footprintCall E o s).1 ∧
    (footprintCall (unitEnqueueMessage Origin σ) o s).1 = QueueFootprint.default :=
  ⟨rfl, rfl, rfl⟩

/-- Claim C7: `EnqueueWithOrigin<E, O>` forwards each `HandleMessage`
operation to the corresponding `EnqueueMessage` operation of `E` at the
fixed origin `O::get()`, and keeps `E`'s `MaxMessageLen`. -/
theorem enqueue_with_origin_refines {O σ : Type} (E : EnqueueMessageImpl O σ)
    (Oget : O) (m : BoundedSlice E.MaxMessageLen)
    (ms : List (BoundedSlice E.MaxMessageLen)) (s : σ) :
    (EnqueueWithOrigin E Oget).MaxMessageLen = E.MaxMessageLen ∧
    (EnqueueWithOrigin E Oget).handle_message m s = E.enqueue_message m Oget s ∧
    (EnqueueWithOrigin E Oget).handle_messages ms s = E.enqueue_messages ms Oget s ∧
    (EnqueueWithOrigin E Oget).sweep_queue s = E.sweep_queue Oget s ∧
    (EnqueueWithOrigin E Oget).footprint s = E.footprint Oget s :=
  ⟨rfl, rfl, rfl, rfl, rfl⟩

/-- Claim C8: `TransformOrigin<E, O, N, C>` applies each `EnqueueMessage`
operation of `E` to the converted origin `C::convert(n)`, and keeps `E`'s
`MaxMessageLen`. -/
theorem transform_origin_refines {O N σ : Type} (E : EnqueueMessageImpl O σ)
    (C : N → O) (n : N) (m : BoundedSlice E.MaxMessageLen)
    (ms : List (BoundedSlice E.MaxMessageLen)) (s : σ) :
    (TransformOrigin E C).MaxMessageLen = E.MaxMessageLen ∧
    (TransformOrigin E C).enqueue_message m n s = E.enqueue_message m (C n) s ∧
    (TransformOrigin E C).enqueue_messages ms n s = E.enqueue_messages ms (C n) s ∧
    (TransformOrigin E C).sweep_queue n s = E.sweep_queue (C n) s ∧
    (TransformOrigin E C).footprint n s = E.footprint (C n) s :=
  ⟨rfl, rfl, rfl, rfl, rfl⟩

/-- Claim C9: the `()` implementation of `EnqueueMessage` discards all
traffic: its `MaxMessageLen` is `0` (so every admissible message is empty),
`enqueue_message`, `enqueue_messages` and `sweep_queue` leave the state
unchanged, and `footprint` always returns the default `QueueFootprint`
(zero pages, zero ready pages, zero storage). -/
theorem unit_enqueue_message_discards {Origin σ : Type} (o : Origin) (s : σ)
    (m : BoundedSlice 0) (ms : List (BoundedSlice 0)) :
    (unitEnqueueMessage Origin σ).MaxMessageLen = 0 ∧
    m.data = [] ∧
    (unitEnqueueMessage Origin σ).enqueue_message m o s = s ∧
    (unitEnqueueMessage Origin σ).enqueue_messages ms o s = s ∧
    (unitEnqueueMessage Origin σ).sweep_queue o s = s ∧
    (unitEnqueueMessage Origin σ).footprint o s = QueueFootprint.default ∧
    QueueFootprint.default = ⟨0, 0, ⟨0, 0⟩⟩ :=
  ⟨rfl, List.eq_nil_of_length_eq_zero (Nat.le_zero.mp m.len_le),
    rfl, rfl, rfl, rfl, rfl⟩

end MessagesTraits

namespace IdentityTypes

lemma readBytes_append (l rest : List Nat) :
    readBytes l.length (l ++ rest) = .ok (l, rest) := by
  unfold readBytes
  rw [if_pos (by simp)]
  rw [List.take_left, List.drop_left]

lemma readBytes_append_of_length {n : Nat} (l rest : List Nat)
    (hl : l.length = n) : readBytes n (l ++ rest) = .ok (l, rest) := by
  subst hl; exact readBytes_append l rest

/-- Claim C10: decoding the encoding of any well-formed `Data` value returns
the original value and consumes exactly the encoding; the leading byte is
`0` for `None`, `len + 1` for `Raw`, `34` to `37` for the hash variants; and
decode rejects every input whose leading byte exceeds `37`. -/
theorem data_codec_roundtrip (d : Data) (rest : List Nat) (hd : d.wf) :
    dataDecode (dataEncode d ++ rest) = .ok (d, rest) ∧
    (dataEncode Data.none).head? = some 0 ∧
    (∀ x : List Nat, x.length ≤ 32 →
      (dataEncode (Data.raw x)).head? = some (x.length + 1)) ∧
    (∀ h : List Nat,
      (dataEncode (Data.blakeTwo256 h)).head? = some 34 ∧
      (dataEncode (Data.sha256 h)).head? = some 35 ∧
      (dataEncode (Data.keccak256 h)).head? = some 36 ∧
      (dataEncode (Data.shaThree256 h)).head? = some 37) ∧
    (∀ b tail, 37 < b →
      dataDecode (b :: tail) = .error "invalid leading byte") := by
  refine ⟨?_, rfl, ?_, fun h => ⟨rfl, rfl, rfl, rfl⟩, ?_⟩
  · cases d with
    | none => rfl
    | raw x =>
      have hx : x.length ≤ 32 := hd
      have hmin : min x.length 32 = x.length := Nat.min_eq_left hx
      simp only [dataEncode, hmin, List.take_length, List.cons_append]
      simp only [dataDecode]
      rw [if_neg (by omega), if_pos (by omega)]
      rw [show x.length + 1 - 1 = x.length from rfl, readBytes_append]
    | blakeTwo256 h =>
      have hh : h.length = 32 := hd
      simp only [dataEncode, List.cons_append, dataDecode]
      rw [if_neg (by omega), if_neg (by omega), if_pos trivial,
        readBytes_append_of_length h rest hh]
    | sha256 h =>
      have hh : h.length = 32 := hd
      simp only [dataEncode, List.cons_append, dataDecode]
      rw [if_neg (by omega), if_neg (by omega), if_neg (by omega), if_pos trivial,
        readBytes_append_of_length h rest hh]
    | keccak256 h =>
      have hh : h.length = 32 := hd
      simp only [dataEncode, List.cons_append, dataDecode]
      rw [if_neg (by omega), if_neg (by omega), if_neg (by omega),
        if_neg (by omega), if_pos trivial, readBytes_append_of_length h rest hh]
    | shaThree256 h =>
      have hh : h.length = 32 := hd
      simp only [dataEncode, List.cons_append, dataDecode]
      rw [if_neg (by omega), if_neg (by omega), if_neg (by omega),
        if_neg (by omega), if_neg (by omega), if_pos trivial,
        readBytes_append_of_length h rest hh]
  · intro x hx
    simp only [dataEncode, Nat.min_eq_left hx, List.head?]
  · intro b tail hb
    simp only [dataDecode]
    rw [if_neg (by omega), if_neg (by omega), if_neg (by omega),
      if_neg (by omega), if_neg (by omega), if_neg (by omega)]

/-- Concrete instantiation of `data_codec_roundtrip` at `Raw [7, 8, 9]`. -/
theorem data_codec_roundtrip_witness :
    Data.wf (Data.raw [7, 8, 9]) ∧
    dataDecode (dataEncode (Data.raw [7, 8, 9]) ++ [5]) =
      .ok (Data.raw [7, 8, 9], [5]) :=
  ⟨by decide, (data_codec_roundtrip (Data.raw [7, 8, 9]) [5] (by decide)).1⟩

end IdentityTypes

namespace ServiceModel

lemma fifoInv_step (op : MQOp) (s : MQState) (h : fifoInv s) :
    fifoInv (MQStep op s) := by
  intro o
  cases op with
  | enqueue o2 m =>
    simp only [MQStep, upd]
    by_cases hx : o = o2
    · subst hx
      simp [← List.append_assoc, h o]
    · simp only [if_neg hx]
      exact h o
  | enqueueBatch o2 ms =>
    simp only [MQStep, upd]
    by_cases hx : o = o2
    · subst hx
      simp [← List.append_assoc, h o]
    · simp only [if_neg hx]
      exact h o
  | serviceStep o2 oc =>
    cases hq : s.queues o2 with
    | nil =>
      cases oc <;> simp only [MQStep, hq] <;> exact h o
    | cons m rest =>
      have h2 : s.resolvedTrace o2 ++ (m :: rest) = s.enqueuedTrace o2 := by
        rw [← hq]; exact h o2
      cases oc with
      | processed =>
        simp only [MQStep, hq, upd]
        by_cases hx : o = o2
        · subst hx
          simpa [List.append_assoc] using h2
        · simp only [if_neg hx]; exact h o
      | dropped =>
        simp only [MQStep, hq, upd]
        by_cases hx : o = o2
        · subst hx
          simpa [List.append_assoc] using h2
        · simp only [if_neg hx]; exact h o
      | relocated =>
        simp only [MQStep, hq, upd]
        by_cases hx : o = o2
        · subst hx
          simpa [List.append_assoc] using h2
        · simp only [if_neg hx]; exact h o
      | yielded => simp only [MQStep, hq]; exact h o
      | recoverable => simp only [MQStep, hq]; exact h o
  | execOverweight i =>
    simp only [MQStep]
    exact h o
  | sweep o2 =>
    simp only [MQStep, upd]
    by_cases hx : o = o2
    · subst hx
      simpa using h o
    · simp only [if_neg hx]
      exact h o

lemma fifoInv_run (ops : List MQOp) (s : MQState) (h : fifoInv s) :
    fifoInv (MQRun ops s) := by
  induction ops generalizing s with
  | nil => exact h
  | cons op rest ih =>
    simp only [MQRun, List.foldl]
    exact ih (MQStep op s) (fifoInv_step op s h)

/-- Claim C2: for every interleaving of enqueue, service, overweight
execution and sweep operations and every origin `o`, the terminal-resolution
history of `o` (processed, dropped, relocated to the Overweight Store, or
swept) followed by the still-pending messages of `o` equals the enqueue
history of `o`: messages of each origin are resolved in exactly enqueue
order. -/
theorem fifo_resolution_order (ops : List MQOp) (o : Nat) :
    (MQRun ops MQInit).resolvedTrace o ++ (MQRun ops MQInit).queues o =
      (MQRun ops MQInit).enqueuedTrace o :=
  fifoInv_run ops MQInit (fun _ => rfl) o

end ServiceModel
